import Mathlib

/-!
Shallow embedding of `src/vector/vector.h`, a generic dynamic array
`vector<T>` with manual memory management.

The observable state of a container is modelled by three fields mirroring
the private members of the class:
  * `data_`     : the list of live, constructed elements (positions
                  `[0, size_)` of the raw buffer); `size_` is recovered as
                  `data_.length`, which is exactly invariant I1 of the spec;
  * `capacity_` : the number of allocated slots;
  * `allocated` : whether the raw pointer `data_` is non-null
                  (`true` ⟺ `data_ != nullptr` in the source).
-/

structure vec (α : Type) where
  data_ : List α
  capacity_ : Nat
  allocated : Bool
deriving Repr, DecidableEq

namespace vec

variable {α : Type}

/-- Observer `size()`: the number of live elements. -/
def size (v : vec α) : Nat := v.data_.length

/-- Observer `capacity()`. -/
def capacity (v : vec α) : Nat := v.capacity_

/-- Observer `empty()`: `size_ == 0`. -/
def vempty (v : vec α) : Bool := v.size = 0

/-- Default constructor `vector()`: null buffer, `size_ = 0`, `capacity_ = 0`. -/
def mk0 : vec α := ⟨[], 0, false⟩

/-- Copy constructor `vector(vector const&)`: when the source is non-empty it
allocates exactly `other.size_` slots, copies the elements, and sets
`size_ = capacity_ = other.size_`; otherwise it stays default-constructed. -/
def copyCtor (v : vec α) : vec α :=
  if v.size ≠ 0 then ⟨v.data_, v.size, true⟩ else mk0

/-- Copy assignment `operator=`, implemented by copy-and-swap: for distinct
instances the target ends up in the state of a fresh copy of the source. -/
def assign (_target : vec α) (other : vec α) : vec α :=
  copyCtor other

/-- Private helper `calc_new_capacity()`: `capacity_ == 0 ? 1 : capacity_ * 2`. -/
def calc_new_capacity (v : vec α) : Nat :=
  if v.capacity_ = 0 then 1 else v.capacity_ * 2

/-- Private helper `new_buffer(new_capacity)` (success path): allocates a
buffer of `new_capacity` slots when `new_capacity != 0` (null otherwise),
relocates the live elements into it by copy construction, frees the old
buffer, and installs the new capacity.  The live element values are
unchanged. -/
def new_buffer (v : vec α) (new_capacity : Nat) : vec α :=
  ⟨v.data_, new_capacity, decide (new_capacity ≠ 0)⟩

/-- Member `push_back(element)` (success path): when `size_ == capacity_` it
copies the argument to `tmp`, reallocates via
`new_buffer(calc_new_capacity())` and constructs `tmp` into the slot at
`size_`; otherwise it constructs the argument in place.  Either way
`size_` grows by one. -/
def push_back (v : vec α) (x : α) : vec α :=
  if v.size = v.capacity_ then
    let v' := new_buffer v v.calc_new_capacity
    { v' with data_ := v'.data_ ++ [x] }
  else
    { v with data_ := v.data_ ++ [x] }

/-- Member `pop_back()`: destroys the last element and decrements `size_`
(the caller guarantees the container is non-empty). -/
def pop_back (v : vec α) : vec α :=
  { v with data_ := v.data_.dropLast }

/-- Member `reserve(new_capacity)`: reallocates only when
`new_capacity > capacity_`. -/
def reserve (v : vec α) (new_capacity : Nat) : vec α :=
  if new_capacity > v.capacity_ then new_buffer v new_capacity else v

/-- Member `shrink_to_fit()`: reallocates to exactly `size_` slots when
`size_ < capacity_`. -/
def shrink_to_fit (v : vec α) : vec α :=
  if v.size < v.capacity_ then new_buffer v v.size else v

/-- Member `clear()`: destroys all live elements; capacity and buffer are
kept. -/
def clear (v : vec α) : vec α :=
  { v with data_ := [] }

/-- Member `swap(other)`: exchanges `data_`, `size_` and `capacity_` of the
two containers. -/
def swap (v w : vec α) : vec α × vec α := (w, v)

/-- Effect on the element list of the adjacent-swap loop of `insert`:
`for (iterator i = end() - 1; i != cur; --i) std::swap(*i, *(i - 1));`
restricted to the suffix starting at the insertion position.  The loop
swaps from the back, so the recursive call handles the swaps inside the
tail first and the head is swapped with the bubbled-up element last. -/
def bubbleDown : List α → List α
  | [] => []
  | [x] => [x]
  | x :: y :: xs =>
    match bubbleDown (y :: xs) with
    | [] => [x]
    | z :: zs => z :: x :: zs

/-- Member `insert(pos, element)` with `pos` at index `ind`:
`push_back(element)`, then the adjacent-swap loop moves the new last
element down to index `ind`.  Returns (new state, index of the returned
iterator `cur = begin() + ind`). -/
def insert (v : vec α) (ind : Nat) (x : α) : vec α × Nat :=
  let v' := push_back v x
  ({ v' with data_ := v'.data_.take ind ++ bubbleDown (v'.data_.drop ind) }, ind)

/-- Exchange of the elements at indices `i` and `j` of a list, the effect of
`std::iter_swap(i, i + cnt)` on the live range (identity when an index is
out of range, which the source never does). -/
def listSwap (l : List α) (i j : Nat) : List α :=
  match l[i]?, l[j]? with
  | some a, some b => (l.set i b).set j a
  | _, _ => l

/-- Shift loop of `erase(first, last)`, with the number of remaining
iterations made structural:
`for (iterator i = begin() + f_shift; i != end() - cnt; ++i) std::iter_swap(i, i + cnt);`. -/
def eraseLoopFuel (l : List α) (i cnt : Nat) : Nat → List α
  | 0 => l
  | fuel + 1 => eraseLoopFuel (listSwap l i (i + cnt)) (i + 1) cnt fuel

/-- Shift loop of `erase(first, last)` with `i` running from `i` up to
`stop = size_ - cnt` (the loop body executes `stop - i` times). -/
def eraseLoop (l : List α) (i stop cnt : Nat) : List α :=
  eraseLoopFuel l i cnt (stop - i)

/-- Repeated `pop_back()` (the second loop of `erase(first, last)`). -/
def popN (v : vec α) : Nat → vec α
  | 0 => v
  | n + 1 => popN (pop_back v) n

/-- Member `erase(first, last)` with `first`, `last` at indices `f`, `l`:
computes `cnt = last - first`; when `cnt ≤ 0` it is a no-op returning
`begin() + l_shift`; otherwise it swaps every element from `last` onward
leftward by `cnt` and pops the trailing `cnt` duplicates.  Returns
(new state, index of the returned iterator). -/
def eraseRange (v : vec α) (f l : Nat) : vec α × Nat :=
  if (l : Int) - (f : Int) ≤ 0 then (v, l)
  else
    let cnt := l - f
    let shifted := eraseLoop v.data_ f (v.size - cnt) cnt
    (popN { v with data_ := shifted } cnt, f)

/-- Member `erase(pos)`: `erase(pos, pos + 1)`. -/
def erase1 (v : vec α) (p : Nat) : vec α × Nat :=
  eraseRange v p (p + 1)

/-- Invariant I2 of the spec: `size_ ≤ capacity_`, and a zero capacity means
the buffer pointer is null. -/
def Inv (v : vec α) : Prop :=
  v.size ≤ v.capacity_ ∧ (v.capacity_ = 0 → v.allocated = false)

instance (v : vec α) : Decidable (Inv v) := by
  unfold Inv; infer_instance

/-- Container obtained from `vector()` by `n` successful `push_back` calls
(the pushed values are the call indices; size and capacity do not depend on
the values). -/
def pushNat : Nat → vec Nat
  | 0 => mk0
  | n + 1 => push_back (pushNat n) n

/-- Capacity after `n` pushes, read off the growth branch of `push_back`. -/
def capSeq : Nat → Nat
  | 0 => 0
  | n + 1 =>
    if n = capSeq n then (if capSeq n = 0 then 1 else capSeq n * 2) else capSeq n

/-- Copy construction of a single `T` under fault injection: the copy
operations performed during one `push_back` call are numbered from 0 in
execution order, and the copy numbered `thr` is the one whose copy
constructor throws (every earlier copy succeeds).  `c` is the number of the
copy being attempted; `none` models the exception. -/
def tryCopy (thr c : Nat) (x : α) : Option α :=
  if c < thr then some x else none

/-- Helper `copy_elements(src, dst, size)` under fault injection: copies the
elements of `src` in order with the running copy counter starting at `c`;
on success returns the constructed destination together with the next
counter value.  If a copy constructor throws, the `catch` block destroys
the partially constructed prefix of `dst` and rethrows, so no constructed
element survives (`none`). -/
def copy_elementsT (thr : Nat) : List α → Nat → Option (List α × Nat)
  | [], c => some ([], c)
  | x :: xs, c =>
    match tryCopy thr c x with
    | none => none
    | some y =>
      match copy_elementsT thr xs (c + 1) with
      | none => none
      | some (ys, c') => some (y :: ys, c')

/-- Member `push_back(element)` under fault injection, following the source
line by line.  On the reallocation path (`size_ == capacity_`) the copies
are: #0 `T tmp = element;`, then inside `new_buffer` the relocation copies
#1 … #size_ (whose failure frees the new buffer and leaves the members
untouched), then — after the old buffer has been freed and `data_` and
`capacity_` reassigned — the final `new(data_ + size_) T(tmp)`.
`Except.error w` gives the container state observable after the exception
propagates; `Except.ok w` the state after success. -/
def push_backT (v : vec α) (x : α) (thr : Nat) : Except (vec α) (vec α) :=
  if v.size = v.capacity_ then
    match tryCopy thr 0 x with
    | none => .error v
    | some tmp =>
      match copy_elementsT thr v.data_ 1 with
      | none => .error v
      | some (newData, c) =>
        let v' : vec α := ⟨newData, v.calc_new_capacity, decide (v.calc_new_capacity ≠ 0)⟩
        match tryCopy thr c tmp with
        | none => .error v'
        | some y => .ok { v' with data_ := v'.data_ ++ [y] }
  else
    match tryCopy thr 0 x with
    | none => .error v
    | some y => .ok { v with data_ := v.data_ ++ [y] }

/-- Pointer-level model, used to express buffer ownership (invariant I3 and
copy independence).  A heap maps buffer addresses to the list of elements
constructed in the buffer; address 0 is the null pointer and `next` is the
first never-allocated address (allocation never reuses addresses, which is
sound for aliasing questions because a live container's buffer is never
freed while the container still points to it). -/
structure Heap (α : Type) where
  mem : Nat → List α
  next : Nat

/-- Pointer-level view of the three members of the class: the raw `data_`
pointer (0 = nullptr) and the two counters. -/
structure vecP where
  ptr : Nat
  size_ : Nat
  capacity_ : Nat
deriving Repr, DecidableEq

/-- Allocation `allocate_data` followed by the construction of `content`
into the fresh buffer: returns the new heap and the fresh non-null
address. -/
def halloc (h : Heap α) (content : List α) : Heap α × Nat :=
  (⟨fun q => if q = h.next then content else h.mem q, h.next + 1⟩, h.next)

/-- Overwrite of the constructed contents of the buffer at address `p`
(placement construction/destruction and element assignment inside an owned
buffer). -/
def hwrite (h : Heap α) (p : Nat) (content : List α) : Heap α :=
  ⟨fun q => if q = p then content else h.mem q, h.next⟩

/-- Live elements of a pointer-level container: the first `size_` elements
constructed in its buffer. -/
def elemsP (h : Heap α) (v : vecP) : List α :=
  (h.mem v.ptr).take v.size_

/-- Copy constructor `vector(vector const&)` at the pointer level: for a
non-empty source, `allocate_data(other.size_)` returns a fresh buffer and
`copy_elements` copies the live elements into it; `size_ = capacity_ =
other.size_`.  An empty source leaves the copy default-constructed (null
buffer). -/
def copyCtorP (h : Heap α) (v : vecP) : Heap α × vecP :=
  if v.size_ ≠ 0 then
    let r := halloc h ((h.mem v.ptr).take v.size_)
    (r.1, ⟨r.2, v.size_, v.size_⟩)
  else (h, ⟨0, 0, 0⟩)

/-- Copy assignment `operator=` at the pointer level for distinct objects:
copy-and-swap gives the target the state of a fresh copy of the source
(the target's old buffer dies with the temporary). -/
def assignP (h : Heap α) (_target : vecP) (other : vecP) : Heap α × vecP :=
  copyCtorP h other

/-- Private `new_buffer(new_capacity)` at the pointer level: a fresh buffer
(null when `new_capacity == 0`) receives the live elements; the old buffer
is freed (its cell goes stale and is never read through this container
again). -/
def new_bufferP (h : Heap α) (v : vecP) (new_capacity : Nat) : Heap α × vecP :=
  if new_capacity ≠ 0 then
    let r := halloc h ((h.mem v.ptr).take v.size_)
    (r.1, ⟨r.2, v.size_, new_capacity⟩)
  else (h, ⟨0, v.size_, 0⟩)

/-- Member `push_back` at the pointer level (success path): on the full
branch `new_buffer(calc_new_capacity())` then `new(data_ + size_) T(tmp)`,
otherwise construction in place at slot `size_`. -/
def push_backP (h : Heap α) (v : vecP) (x : α) : Heap α × vecP :=
  if v.size_ = v.capacity_ then
    let r := new_bufferP h v (if v.capacity_ = 0 then 1 else v.capacity_ * 2)
    (hwrite r.1 r.2.ptr ((r.1.mem r.2.ptr).take r.2.size_ ++ [x]),
      ⟨r.2.ptr, r.2.size_ + 1, r.2.capacity_⟩)
  else
    (hwrite h v.ptr ((h.mem v.ptr).take v.size_ ++ [x]),
      ⟨v.ptr, v.size_ + 1, v.capacity_⟩)

/-- Member `pop_back` at the pointer level: destroys the last element in
place. -/
def pop_backP (h : Heap α) (v : vecP) : Heap α × vecP :=
  (h, ⟨v.ptr, v.size_ - 1, v.capacity_⟩)

/-- Member `clear` at the pointer level. -/
def clearP (h : Heap α) (v : vecP) : Heap α × vecP :=
  (h, ⟨v.ptr, 0, v.capacity_⟩)

/-- Member `reserve` at the pointer level. -/
def reserveP (h : Heap α) (v : vecP) (n : Nat) : Heap α × vecP :=
  if n > v.capacity_ then new_bufferP h v n else (h, v)

/-- Member `shrink_to_fit` at the pointer level. -/
def shrinkP (h : Heap α) (v : vecP) : Heap α × vecP :=
  if v.size_ < v.capacity_ then new_bufferP h v v.size_ else (h, v)

/-- Write through `operator[]` (`v[i] = x`), an in-place update of the owned
buffer. -/
def setIdxP (h : Heap α) (v : vecP) (i : Nat) (x : α) : Heap α × vecP :=
  (hwrite h v.ptr ((h.mem v.ptr).set i x), v)

/-- Member `insert` at the pointer level: `push_back`, then the
adjacent-swap loop permutes the live elements in place. -/
def insertP (h : Heap α) (v : vecP) (ind : Nat) (x : α) : Heap α × vecP :=
  let r := push_backP h v x
  let d := (r.1.mem r.2.ptr).take r.2.size_
  (hwrite r.1 r.2.ptr (d.take ind ++ bubbleDown (d.drop ind)), r.2)

/-- Member `erase(first, last)` at the pointer level: the shift loop swaps
in place, then the `pop_back` loop destroys the trailing elements. -/
def erasePRange (h : Heap α) (v : vecP) (f l : Nat) : Heap α × vecP :=
  if (l : Int) - (f : Int) ≤ 0 then (h, v)
  else
    let cnt := l - f
    let d := (h.mem v.ptr).take v.size_
    (hwrite h v.ptr (eraseLoop d f (v.size_ - cnt) cnt),
      ⟨v.ptr, v.size_ - cnt, v.capacity_⟩)

/-- One mutating operation of the public interface, for quantifying over
arbitrary mutation sequences. -/
inductive Op (α : Type) where
  | push (x : α)
  | pop
  | clearOp
  | reserveOp (n : Nat)
  | shrinkOp
  | setIdx (i : Nat) (x : α)
  | insertOp (ind : Nat) (x : α)
  | eraseOp (f l : Nat)

/-- Interpretation of one mutating operation on a pointer-level container. -/
def applyOp (h : Heap α) (v : vecP) : Op α → Heap α × vecP
  | .push x => push_backP h v x
  | .pop => pop_backP h v
  | .clearOp => clearP h v
  | .reserveOp n => reserveP h v n
  | .shrinkOp => shrinkP h v
  | .setIdx i x => setIdxP h v i x
  | .insertOp i x => insertP h v i x
  | .eraseOp f l => erasePRange h v f l

/-- Interpretation of a sequence of mutating operations. -/
def runOps (h : Heap α) (v : vecP) : List (Op α) → Heap α × vecP
  | [] => (h, v)
  | o :: os => runOps (applyOp h v o).1 (applyOp h v o).2 os

end vec

section sanity

example : (vec.push_back (vec.push_back (vec.mk0 : vec Nat) 1) 2).data_ = [1, 2] := by decide
example : (vec.push_back (vec.push_back (vec.mk0 : vec Nat) 1) 2).capacity_ = 2 := by decide
example : (vec.insert (vec.push_back (vec.push_back (vec.push_back (vec.mk0 : vec Nat) 1) 2) 3) 1 99).1.data_ = [1, 99, 2, 3] := by decide
example : (vec.eraseRange (vec.insert (vec.push_back (vec.push_back (vec.push_back (vec.mk0 : vec Nat) 1) 2) 3) 1 99).1 1 3).1.data_ = [1, 3] := by decide

end sanity

namespace vec

variable {α : Type}

theorem bubbleDown_length (l : List α) : (bubbleDown l).length = l.length := by
  induction l with
  | nil => rfl
  | cons x xs ih =>
    cases xs with
    | nil => rfl
    | cons y ys =>
      simp only [bubbleDown]
      cases h : bubbleDown (y :: ys) with
      | nil => simp [h] at ih
      | cons z zs =>
        simp only [List.length_cons]
        have := ih
        rw [h] at this
        simp only [List.length_cons] at this ⊢
        omega

theorem listSwap_length (l : List α) (i j : Nat) :
    (listSwap l i j).length = l.length := by
  unfold listSwap
  cases hi : l[i]? <;> cases hj : l[j]? <;> simp

theorem eraseLoopFuel_length (fuel : Nat) (l : List α) (i cnt : Nat) :
    (eraseLoopFuel l i cnt fuel).length = l.length := by
  induction fuel generalizing l i with
  | zero => rfl
  | succ fuel ih => simp only [eraseLoopFuel]; rw [ih, listSwap_length]

theorem eraseLoop_length (l : List α) (i stop cnt : Nat) :
    (eraseLoop l i stop cnt).length = l.length :=
  eraseLoopFuel_length _ _ _ _

theorem popN_length (n : Nat) (v : vec α) :
    (popN v n).size = v.size - n := by
  induction n generalizing v with
  | zero => simp [popN]
  | succ n ih =>
    simp only [popN]
    rw [ih]
    simp only [pop_back, size, List.length_dropLast]
    omega

theorem popN_capacity (n : Nat) (v : vec α) :
    (popN v n).capacity_ = v.capacity_ ∧ (popN v n).allocated = v.allocated := by
  induction n generalizing v with
  | zero => exact ⟨rfl, rfl⟩
  | succ n ih => simpa [popN, pop_back] using ih (pop_back v)

theorem size_push_back (v : vec α) (x : α) :
    (push_back v x).size = v.size + 1 := by
  unfold push_back new_buffer
  split <;> simp [size]

theorem capacity_push_back (v : vec α) (x : α) :
    (push_back v x).capacity_ =
      if v.size = v.capacity_ then calc_new_capacity v else v.capacity_ := by
  unfold push_back new_buffer
  split <;> rfl

theorem Inv_mk0 : Inv (mk0 : vec α) := by
  constructor <;> simp [mk0, size, Inv]

theorem Inv_copyCtor (v : vec α) : Inv (copyCtor v) := by
  unfold copyCtor
  split
  · next h => exact ⟨le_refl _, fun h0 => absurd h0 h⟩
  · exact Inv_mk0

theorem Inv_push_back (v : vec α) (x : α) (hv : Inv v) : Inv (push_back v x) := by
  obtain ⟨h1, h2⟩ := hv
  have h1' : v.data_.length ≤ v.capacity_ := h1
  constructor
  · show (push_back v x).size ≤ (push_back v x).capacity_
    simp only [push_back, new_buffer, calc_new_capacity, size]
    split
    · next hfull =>
      simp only [List.length_append, List.length_cons, List.length_nil]
      split <;> omega
    · next hfull =>
      simp only [List.length_append, List.length_cons, List.length_nil]
      omega
  · show (push_back v x).capacity_ = 0 → (push_back v x).allocated = false
    simp only [push_back, new_buffer, calc_new_capacity, size]
    split
    · intro hc
      exfalso
      have hc' : (if v.capacity_ = 0 then 1 else v.capacity_ * 2) = 0 := hc
      split at hc' <;> omega
    · exact h2

theorem Inv_pop_back (v : vec α) (hv : Inv v) : Inv (pop_back v) := by
  obtain ⟨h1, h2⟩ := hv
  refine ⟨?_, h2⟩
  simp only [pop_back, size, List.length_dropLast] at *
  omega

theorem Inv_new_buffer_ge (v : vec α) (n : Nat) (h : v.size ≤ n) :
    Inv (new_buffer v n) := by
  refine ⟨h, ?_⟩
  intro h0
  simp [new_buffer] at *
  omega

theorem Inv_reserve (v : vec α) (n : Nat) (hv : Inv v) : Inv (reserve v n) := by
  unfold reserve
  split
  · next h => exact Inv_new_buffer_ge v n (le_trans hv.1 (Nat.le_of_lt h))
  · exact hv

theorem Inv_shrink_to_fit (v : vec α) (hv : Inv v) : Inv (shrink_to_fit v) := by
  unfold shrink_to_fit
  split
  · exact Inv_new_buffer_ge v v.size (le_refl _)
  · exact hv

theorem Inv_clear (v : vec α) (hv : Inv v) : Inv (clear v) :=
  ⟨by simp [clear, size], hv.2⟩

theorem size_insert (v : vec α) (p : Nat) (x : α) :
    (insert v p x).1.size = v.size + 1 := by
  simp only [insert, size, List.length_append, List.length_take, bubbleDown_length,
    List.length_drop]
  have := size_push_back v x
  simp only [size] at this
  omega

theorem Inv_insert (v : vec α) (p : Nat) (x : α) (hv : Inv v) : Inv (insert v p x).1 := by
  obtain ⟨hp1, hp2⟩ := Inv_push_back v x hv
  have hs := size_insert v p x
  have hs' := size_push_back v x
  rw [hs'] at hp1
  refine ⟨?_, hp2⟩
  have hc : (insert v p x).1.capacity_ = (push_back v x).capacity_ := rfl
  rw [hs, hc]
  exact hp1

theorem Inv_eraseRange (v : vec α) (f l : Nat) (hv : Inv v) : Inv (eraseRange v f l).1 := by
  obtain ⟨h1, h2⟩ := hv
  unfold eraseRange
  split
  · exact ⟨h1, h2⟩
  · have hlen : (eraseLoop v.data_ f (v.size - (l - f)) (l - f)).length = v.data_.length :=
      eraseLoop_length _ _ _ _
    have hcap := popN_capacity (l - f) { v with data_ := eraseLoop v.data_ f (v.size - (l - f)) (l - f) }
    have hsz := popN_length (l - f) { v with data_ := eraseLoop v.data_ f (v.size - (l - f)) (l - f) }
    refine ⟨?_, ?_⟩
    · rw [hsz, hcap.1]
      show (eraseLoop v.data_ f (v.size - (l - f)) (l - f)).length - (l - f) ≤ v.capacity_
      rw [hlen]
      exact le_trans (Nat.sub_le _ _) h1
    · rw [hcap.1, hcap.2]
      exact h2

theorem pushNat_size (n : Nat) : (pushNat n).size = n := by
  induction n with
  | zero => rfl
  | succ n ih => rw [pushNat, size_push_back, ih]

theorem pushNat_capacity (n : Nat) : (pushNat n).capacity_ = capSeq n := by
  induction n with
  | zero => rfl
  | succ n ih =>
    rw [pushNat, capacity_push_back, pushNat_size, ih, capSeq, calc_new_capacity, ih]

theorem capSeq_pow (n : Nat) (hn : 0 < n) : capSeq n = 2 ^ Nat.clog 2 n := by
  induction n with
  | zero => omega
  | succ n ih =>
    rcases Nat.eq_zero_or_pos n with h0 | hpos
    · subst h0
      simp [capSeq, Nat.clog_one_right]
    · have ihn := ih hpos
      rw [capSeq, ihn]
      have hle : n ≤ 2 ^ Nat.clog 2 n := Nat.le_pow_clog one_lt_two n
      split
      · next heq =>
        rw [if_neg (by omega)]
        have h1 : Nat.clog 2 (n + 1) = Nat.clog 2 n + 1 := by
          have hlt : Nat.clog 2 n < Nat.clog 2 (n + 1) :=
            (Nat.pow_lt_iff_lt_clog one_lt_two).1 (by omega)
          have hub : Nat.clog 2 (n + 1) ≤ Nat.clog 2 n + 1 :=
            (Nat.le_pow_iff_clog_le one_lt_two).1 (by rw [pow_succ]; omega)
          omega
        rw [h1, pow_succ]
      · next hne =>
        have h1 : Nat.clog 2 (n + 1) = Nat.clog 2 n := by
          have hub : Nat.clog 2 (n + 1) ≤ Nat.clog 2 n :=
            (Nat.le_pow_iff_clog_le one_lt_two).1 (by omega)
          have hlb : Nat.clog 2 n ≤ Nat.clog 2 (n + 1) :=
            Nat.clog_mono_right 2 (by omega)
          omega
        rw [h1]

theorem data_push_back (v : vec α) (x : α) :
    (push_back v x).data_ = v.data_ ++ [x] := by
  unfold push_back new_buffer
  split <;> rfl

theorem bubbleDown_append_singleton (l : List α) (x : α) :
    bubbleDown (l ++ [x]) = x :: l := by
  induction l with
  | nil => rfl
  | cons a l ih =>
    cases l with
    | nil => rfl
    | cons b l' =>
      rw [List.cons_append] at ih
      show bubbleDown (a :: b :: (l' ++ [x])) = x :: a :: b :: l'
      rw [bubbleDown, ih]

theorem insert_data (v : vec α) (p : Nat) (x : α) (hp : p ≤ v.size) :
    (insert v p x).1.data_ = v.data_.take p ++ x :: v.data_.drop p := by
  show (push_back v x).data_.take p ++ bubbleDown ((push_back v x).data_.drop p) = _
  rw [data_push_back, List.take_append_of_le_length hp,
    List.drop_append_of_le_length hp, bubbleDown_append_singleton]

theorem eraseLoopFuel_getElem (fuel : Nat) (l : List α) (i cnt k : Nat)
    (hcnt : 1 ≤ cnt) (hlen : i + fuel + cnt ≤ l.length) (hk : k < i + fuel) :
    (eraseLoopFuel l i cnt fuel)[k]? = if k < i then l[k]? else l[k + cnt]? := by
  induction fuel generalizing l i with
  | zero =>
    rw [eraseLoopFuel, if_pos (by omega)]
  | succ fuel ih =>
    rw [eraseLoopFuel]
    have hi : i < l.length := by omega
    have hij : i + cnt < l.length := by omega
    have hswap : listSwap l i (i + cnt) = (l.set i l[i + cnt]).set (i + cnt) l[i] := by
      unfold listSwap
      rw [List.getElem?_eq_getElem hi, List.getElem?_eq_getElem hij]
    have hlen' : (listSwap l i (i + cnt)).length = l.length := listSwap_length l i (i + cnt)
    have hrec := ih (listSwap l i (i + cnt)) (i + 1) (by rw [hlen']; omega) (by omega)
    rw [hrec]
    by_cases hki : k < i
    · rw [if_pos (by omega : k < i + 1), hswap,
        List.getElem?_set_ne (by omega), List.getElem?_set_ne (by omega), if_pos hki]
    · by_cases hke : k = i
      · subst hke
        rw [if_pos (by omega : k < k + 1), if_neg hki, hswap,
          List.getElem?_set_ne (by omega), List.getElem?_set_eq_of_lt _ (by omega),
          List.getElem?_eq_getElem hij]
      · rw [if_neg (by omega : ¬ k < i + 1), if_neg hki, hswap,
          List.getElem?_set_ne (by omega), List.getElem?_set_ne (by omega)]

theorem popN_data (n : Nat) (v : vec α) :
    (popN v n).data_ = v.data_.take (v.data_.length - n) := by
  induction n generalizing v with
  | zero => simp [popN]
  | succ n ih =>
    rw [popN, ih]
    show (v.data_.dropLast).take (v.data_.dropLast.length - n) = _
    rw [List.dropLast_eq_take, List.take_take, List.length_take]
    congr 1
    omega

theorem eraseRange_main (v : vec α) (f l : Nat) (hfl : f < l) (hl : l ≤ v.size) :
    (eraseRange v f l).1.data_ = v.data_.take f ++ v.data_.drop l ∧
    (eraseRange v f l).2 = f ∧
    (eraseRange v f l).1.capacity_ = v.capacity_ ∧
    (eraseRange v f l).1.allocated = v.allocated := by
  have hn : v.size = v.data_.length := rfl
  have hcond : ¬ ((l : Int) - (f : Int) ≤ 0) := by omega
  unfold eraseRange
  rw [if_neg hcond]
  refine ⟨?_, rfl, (popN_capacity _ _).1, (popN_capacity _ _).2⟩
  show (popN { v with data_ := eraseLoop v.data_ f (v.size - (l - f)) (l - f) } (l - f)).data_ = _
  rw [popN_data]
  show (eraseLoop v.data_ f (v.size - (l - f)) (l - f)).take
      ((eraseLoop v.data_ f (v.size - (l - f)) (l - f)).length - (l - f)) = _
  rw [eraseLoop_length]
  unfold eraseLoop
  have htf : (v.data_.take f).length = f := by
    rw [List.length_take]; omega
  apply List.ext_getElem?
  intro k
  rw [List.getElem?_take, List.getElem?_append, htf]
  by_cases hk1 : k < v.data_.length - (l - f)
  · rw [if_pos hk1,
      eraseLoopFuel_getElem (v.size - (l - f) - f) v.data_ f (l - f) k
        (by omega) (by omega) (by omega)]
    by_cases hk2 : k < f
    · rw [if_pos hk2, if_pos hk2, List.getElem?_take, if_pos hk2]
    · rw [if_neg hk2, if_neg hk2, List.getElem?_drop]
      congr 1
      omega
  · rw [if_neg hk1, if_neg (by omega : ¬ k < f),
      List.getElem?_eq_none
        (show (v.data_.drop l).length ≤ k - f by rw [List.length_drop]; omega)]

theorem eraseRange_noop (v : vec α) (f l : Nat) (hfl : l ≤ f) :
    eraseRange v f l = (v, l) := by
  unfold eraseRange
  rw [if_pos (by omega)]

theorem copy_elementsT_eq (thr : Nat) (l : List α) (c : Nat) (hc : c ≤ thr) :
    copy_elementsT thr l c =
      if c + l.length ≤ thr then some (l, c + l.length) else none := by
  induction l generalizing c with
  | nil =>
    rw [if_pos (by simp only [List.length_nil]; omega)]
    simp [copy_elementsT]
  | cons x xs ih =>
    rw [copy_elementsT, tryCopy]
    by_cases h : c < thr
    · rw [if_pos h, ih (c + 1) (by omega)]
      by_cases h2 : c + 1 + xs.length ≤ thr
      · rw [if_pos h2, if_pos (by simp only [List.length_cons]; omega)]
        have : c + 1 + xs.length = c + (x :: xs).length := by
          simp only [List.length_cons]; omega
        rw [this]
      · rw [if_neg h2, if_neg (by simp only [List.length_cons]; omega)]
    · rw [if_neg h, if_neg (by simp only [List.length_cons]; omega)]

theorem calc_new_capacity_ne_zero (v : vec α) : calc_new_capacity v ≠ 0 := by
  unfold calc_new_capacity
  split <;> omega

theorem push_backT_eq (v : vec α) (x : α) (thr : Nat) (hre : v.size = v.capacity_) :
    push_backT v x thr =
      if thr ≤ v.size then .error v
      else if thr = v.size + 1 then
        .error ⟨v.data_, calc_new_capacity v, decide (calc_new_capacity v ≠ 0)⟩
      else .ok ⟨v.data_ ++ [x], calc_new_capacity v, decide (calc_new_capacity v ≠ 0)⟩ := by
  have hlen : v.size = v.data_.length := rfl
  unfold push_backT
  rw [if_pos hre]
  split
  · next htmp =>
    have h0 : thr = 0 := by
      by_contra h
      rw [tryCopy, if_pos (by omega)] at htmp
      exact Option.noConfusion htmp
    subst h0
    rw [if_pos (by omega)]
  · next tmp htmp =>
    have h0 : 0 < thr := by
      by_contra h
      rw [tryCopy, if_neg (by omega)] at htmp
      exact Option.noConfusion htmp
    rw [tryCopy, if_pos h0] at htmp
    obtain rfl := Option.some.inj htmp
    split
    · next hcp =>
      rw [copy_elementsT_eq thr v.data_ 1 (by omega)] at hcp
      split at hcp
      · exact Option.noConfusion hcp
      · next hgt =>
        rw [if_pos (by omega)]
    · next newData c hcp =>
      rw [copy_elementsT_eq thr v.data_ 1 (by omega)] at hcp
      split at hcp
      · next hle =>
        simp only [Option.some.injEq, Prod.mk.injEq] at hcp
        obtain ⟨h1, h2⟩ := hcp
        subst h1
        subst h2
        split
        · next hfin =>
          have hle2 : thr ≤ 1 + v.data_.length := by
            by_contra h
            rw [tryCopy, if_pos (by omega)] at hfin
            exact Option.noConfusion hfin
          rw [if_neg (by omega), if_pos (by omega)]
        · next y hfin =>
          have hlt2 : 1 + v.data_.length < thr := by
            by_contra h
            rw [tryCopy, if_neg (by omega)] at hfin
            exact Option.noConfusion hfin
          rw [tryCopy, if_pos hlt2] at hfin
          obtain rfl := Option.some.inj hfin
          rw [if_neg (by omega), if_neg (by omega)]
      · exact Option.noConfusion hcp

theorem push_backT_success (v : vec α) (x : α) (thr : Nat)
    (hre : v.size = v.capacity_) (h : v.size + 2 ≤ thr) :
    push_backT v x thr = .ok (push_back v x) := by
  rw [push_backT_eq v x thr hre, if_neg (by omega), if_neg (by omega)]
  unfold push_back new_buffer
  rw [if_pos hre]

theorem halloc_mem_lt (h : Heap α) (content : List α) (q : Nat) (hq : q < h.next) :
    (halloc h content).1.mem q = h.mem q := by
  show (if q = h.next then content else h.mem q) = h.mem q
  rw [if_neg (by omega)]

theorem hwrite_mem_ne (h : Heap α) (p : Nat) (content : List α) (q : Nat) (hq : q ≠ p) :
    (hwrite h p content).mem q = h.mem q := by
  show (if q = p then content else h.mem q) = h.mem q
  rw [if_neg hq]

theorem elemsP_null (h : Heap α) (v : vecP) (h0 : v.size_ = 0) : elemsP h v = [] := by
  unfold elemsP
  rw [h0, List.take_zero]

theorem new_bufferP_next (h : Heap α) (v : vecP) (n : Nat) :
    h.next ≤ (new_bufferP h v n).1.next := by
  unfold new_bufferP
  split
  · exact Nat.le_succ _
  · exact le_refl _

theorem push_backP_next (h : Heap α) (v : vecP) (x : α) :
    h.next ≤ (push_backP h v x).1.next := by
  unfold push_backP
  split
  · exact new_bufferP_next h v _
  · exact le_refl _

theorem applyOp_next (h : Heap α) (c : vecP) (o : Op α) :
    h.next ≤ (applyOp h c o).1.next := by
  cases o with
  | push x => exact push_backP_next h c x
  | pop => exact le_refl _
  | clearOp => exact le_refl _
  | reserveOp n =>
    show h.next ≤ (reserveP h c n).1.next
    unfold reserveP
    split
    · exact new_bufferP_next h c n
    · exact le_refl _
  | shrinkOp =>
    show h.next ≤ (shrinkP h c).1.next
    unfold shrinkP
    split
    · exact new_bufferP_next h c _
    · exact le_refl _
  | setIdx i x => exact le_refl _
  | insertOp i x => exact push_backP_next h c x
  | eraseOp f l =>
    show h.next ≤ (erasePRange h c f l).1.next
    unfold erasePRange
    split
    · exact le_refl _
    · exact le_refl _

theorem new_bufferP_mem (h : Heap α) (v : vecP) (n : Nat) (q : Nat) (hq : q < h.next) :
    (new_bufferP h v n).1.mem q = h.mem q := by
  unfold new_bufferP
  split
  · exact halloc_mem_lt h _ q hq
  · rfl

theorem new_bufferP_ptr (h : Heap α) (v : vecP) (n : Nat) :
    ((new_bufferP h v n).2.ptr = h.next ∧ (new_bufferP h v n).1.next = h.next + 1) ∨
      (new_bufferP h v n).2.ptr = 0 := by
  unfold new_bufferP
  split
  · exact Or.inl ⟨rfl, rfl⟩
  · exact Or.inr rfl

theorem push_backP_mem (h : Heap α) (c : vecP) (x : α) (q : Nat)
    (hq : q < h.next) (hqc : q ≠ c.ptr) :
    (push_backP h c x).1.mem q = h.mem q := by
  unfold push_backP new_bufferP
  split
  · rw [if_pos (show (if c.capacity_ = 0 then 1 else c.capacity_ * 2) ≠ 0 by
      split <;> omega)]
    show (hwrite (halloc h ((h.mem c.ptr).take c.size_)).1 h.next _).mem q = h.mem q
    rw [hwrite_mem_ne _ _ _ q (by omega)]
    exact halloc_mem_lt h _ q hq
  · exact hwrite_mem_ne h c.ptr _ q hqc

theorem push_backP_ptr (h : Heap α) (c : vecP) (x : α) :
    (push_backP h c x).2.ptr = c.ptr ∨
      ((push_backP h c x).2.ptr = h.next ∧ (push_backP h c x).1.next = h.next + 1) := by
  unfold push_backP new_bufferP
  split
  · rw [if_pos (show (if c.capacity_ = 0 then 1 else c.capacity_ * 2) ≠ 0 by
      split <;> omega)]
    exact Or.inr ⟨rfl, rfl⟩
  · exact Or.inl rfl

theorem applyOp_mem (h : Heap α) (c : vecP) (o : Op α) (q : Nat)
    (hq : q < h.next) (hqc : q ≠ c.ptr) :
    (applyOp h c o).1.mem q = h.mem q := by
  cases o with
  | push x => exact push_backP_mem h c x q hq hqc
  | pop => rfl
  | clearOp => rfl
  | reserveOp n =>
    show (reserveP h c n).1.mem q = h.mem q
    unfold reserveP
    split
    · exact new_bufferP_mem h c n q hq
    · rfl
  | shrinkOp =>
    show (shrinkP h c).1.mem q = h.mem q
    unfold shrinkP
    split
    · exact new_bufferP_mem h c _ q hq
    · rfl
  | setIdx i x => exact hwrite_mem_ne h c.ptr _ q hqc
  | insertOp i x =>
    show (insertP h c i x).1.mem q = h.mem q
    unfold insertP
    show (hwrite (push_backP h c x).1 (push_backP h c x).2.ptr _).mem q = _
    rcases push_backP_ptr h c x with hp | ⟨hp, _⟩
    · rw [hwrite_mem_ne _ _ _ q (by rw [hp]; exact hqc)]
      exact push_backP_mem h c x q hq hqc
    · rw [hwrite_mem_ne _ _ _ q (by rw [hp]; omega)]
      exact push_backP_mem h c x q hq hqc
  | eraseOp f l =>
    show (erasePRange h c f l).1.mem q = h.mem q
    unfold erasePRange
    split
    · rfl
    · exact hwrite_mem_ne h c.ptr _ q hqc

theorem applyOp_ptr (h : Heap α) (c : vecP) (o : Op α) :
    (applyOp h c o).2.ptr = c.ptr ∨ (applyOp h c o).2.ptr = 0 ∨
      (h.next ≤ (applyOp h c o).2.ptr ∧
        (applyOp h c o).2.ptr < (applyOp h c o).1.next) := by
  cases o with
  | push x =>
    simp only [applyOp]
    rcases push_backP_ptr h c x with hp | ⟨hp, hn⟩
    · exact Or.inl hp
    · exact Or.inr (Or.inr ⟨le_of_eq hp.symm, by omega⟩)
  | pop => exact Or.inl rfl
  | clearOp => exact Or.inl rfl
  | reserveOp n =>
    simp only [applyOp]
    unfold reserveP
    split
    · rcases new_bufferP_ptr h c n with ⟨hp, hn⟩ | hp
      · exact Or.inr (Or.inr ⟨le_of_eq hp.symm, by omega⟩)
      · exact Or.inr (Or.inl hp)
    · exact Or.inl rfl
  | shrinkOp =>
    simp only [applyOp]
    unfold shrinkP
    split
    · rcases new_bufferP_ptr h c c.size_ with ⟨hp, hn⟩ | hp
      · exact Or.inr (Or.inr ⟨le_of_eq hp.symm, by omega⟩)
      · exact Or.inr (Or.inl hp)
    · exact Or.inl rfl
  | setIdx i x => exact Or.inl rfl
  | insertOp i x =>
    simp only [applyOp]
    have h2 : (insertP h c i x).2 = (push_backP h c x).2 := rfl
    have hn2 : (insertP h c i x).1.next = (push_backP h c x).1.next := rfl
    rw [h2, hn2]
    rcases push_backP_ptr h c x with hp | ⟨hp, hn⟩
    · exact Or.inl hp
    · exact Or.inr (Or.inr ⟨le_of_eq hp.symm, by omega⟩)
  | eraseOp f l =>
    simp only [applyOp]
    unfold erasePRange
    split
    · exact Or.inl rfl
    · exact Or.inl rfl

theorem applyOp_ptr_lt (h : Heap α) (c : vecP) (o : Op α) (hc : c.ptr < h.next) :
    (applyOp h c o).2.ptr < (applyOp h c o).1.next := by
  have hnext := applyOp_next h c o
  rcases applyOp_ptr h c o with h1 | h1 | ⟨h1, h2⟩
  · omega
  · omega
  · exact h2

theorem applyOp_frame (h : Heap α) (c : vecP) (o : Op α) (v : vecP)
    (hv : v.ptr < h.next) (hd : c.ptr ≠ v.ptr ∨ v.ptr = 0)
    (hv0 : v.ptr = 0 → v.size_ = 0) :
    elemsP (applyOp h c o).1 v = elemsP h v := by
  rcases hd with hd | hd
  · unfold elemsP
    rw [applyOp_mem h c o v.ptr hv (fun he => hd he.symm)]
  · rw [elemsP_null _ _ (hv0 hd), elemsP_null _ _ (hv0 hd)]

theorem applyOp_disjoint (h : Heap α) (c : vecP) (o : Op α) (v : vecP)
    (hv : v.ptr < h.next) (hd : c.ptr ≠ v.ptr ∨ v.ptr = 0) :
    (applyOp h c o).2.ptr ≠ v.ptr ∨ v.ptr = 0 := by
  by_cases h0 : v.ptr = 0
  · exact Or.inr h0
  · left
    rcases applyOp_ptr h c o with h1 | h1 | ⟨h1, _⟩
    · rw [h1]
      rcases hd with hd | hd
      · exact hd
      · exact absurd hd h0
    · omega
    · omega

theorem runOps_frame (ops : List (Op α)) (h : Heap α) (c v : vecP)
    (hv : v.ptr < h.next) (hc : c.ptr < h.next)
    (hd : c.ptr ≠ v.ptr ∨ v.ptr = 0) (hv0 : v.ptr = 0 → v.size_ = 0) :
    elemsP (runOps h c ops).1 v = elemsP h v := by
  induction ops generalizing h c with
  | nil => rfl
  | cons o os ih =>
    rw [runOps]
    rw [ih (applyOp h c o).1 (applyOp h c o).2
      (lt_of_lt_of_le hv (applyOp_next h c o))
      (applyOp_ptr_lt h c o hc)
      (applyOp_disjoint h c o v hv hd)]
    exact applyOp_frame h c o v hv hd hv0

theorem copyCtorP_spec (h : Heap α) (v : vecP) (hv : v.ptr < h.next) :
    elemsP (copyCtorP h v).1 (copyCtorP h v).2 = elemsP h v ∧
    elemsP (copyCtorP h v).1 v = elemsP h v ∧
    h.next ≤ (copyCtorP h v).1.next ∧
    (copyCtorP h v).2.ptr < (copyCtorP h v).1.next ∧
    ((copyCtorP h v).2.ptr ≠ v.ptr ∨ v.ptr = 0) ∧
    (v.ptr ≠ (copyCtorP h v).2.ptr ∨ (copyCtorP h v).2.ptr = 0) ∧
    ((copyCtorP h v).2.ptr = 0 → (copyCtorP h v).2.size_ = 0) := by
  by_cases hs : v.size_ ≠ 0
  · rw [copyCtorP, if_pos hs]
    dsimp only [elemsP, halloc]
    refine ⟨?_, ?_, Nat.le_succ _, Nat.lt_succ_self _, Or.inl (by omega),
      Or.inl (by omega), fun h0 => absurd h0 (by omega)⟩
    · rw [if_pos rfl, List.take_take, Nat.min_self]
    · rw [if_neg (by omega)]
  · rw [copyCtorP, if_neg hs]
    have hs0 : v.size_ = 0 := by omega
    dsimp only [elemsP]
    refine ⟨?_, rfl, le_refl _, by omega, ?_, ?_, fun _ => rfl⟩
    · rw [hs0, List.take_zero, List.take_zero]
    · by_cases h0 : v.ptr = 0
      · exact Or.inr h0
      · exact Or.inl (fun he => h0 he.symm)
    · by_cases h0 : v.ptr = 0
      · exact Or.inr rfl
      · exact Or.inl (fun he => h0 he)

end vec

/-- C3: After `n` successful `push_back` calls on a default-constructed
container the size is `n`; the capacity is 0 for `n = 0` and otherwise the
least power of two that is at least `n` (the doubling schedule 1, 2, 4,
8, …), and the capacity changes only on calls made with size equal to
capacity. -/
theorem C3_push_back_schedule (n : Nat) :
    (vec.pushNat n).size = n ∧
    (vec.pushNat 0).capacity_ = 0 ∧
    (0 < n →
      (vec.pushNat n).capacity_ = 2 ^ Nat.clog 2 n ∧
      n ≤ (vec.pushNat n).capacity_ ∧
      (∀ k, n ≤ 2 ^ k → (vec.pushNat n).capacity_ ≤ 2 ^ k)) ∧
    ((vec.pushNat n).size ≠ (vec.pushNat n).capacity_ →
      (vec.pushNat (n + 1)).capacity_ = (vec.pushNat n).capacity_) := by
  refine ⟨vec.pushNat_size n, rfl, ?_, ?_⟩
  · intro hn
    rw [vec.pushNat_capacity, vec.capSeq_pow n hn]
    exact ⟨rfl, Nat.le_pow_clog one_lt_two n,
      fun k hk => Nat.pow_le_pow_right (by omega)
        ((Nat.le_pow_iff_clog_le one_lt_two).1 hk)⟩
  · intro hne
    rw [vec.pushNat_size, vec.pushNat_capacity] at hne
    rw [vec.pushNat_capacity, vec.pushNat_capacity, vec.capSeq, if_neg hne]

/-- Witness for C3 at `n = 5`: size 5, capacity 8, and the no-growth step
from `n = 5` to `n = 6` (size 5 ≠ capacity 8). -/
theorem C3_witness :
    (vec.pushNat 5).size = 5 ∧
    (0 < 5 → (vec.pushNat 5).capacity_ = 2 ^ Nat.clog 2 5) ∧
    (vec.pushNat 6).capacity_ = (vec.pushNat 5).capacity_ :=
  ⟨(C3_push_back_schedule 5).1,
    fun h => ((C3_push_back_schedule 5).2.2.1 h).1,
    (C3_push_back_schedule 5).2.2.2 (by decide)⟩

/-- C2: Every public operation (default construct, copy construct, copy
assign, push_back, pop_back, reserve, shrink_to_fit, clear, swap, insert,
erase) maps states satisfying invariant I2 — size ≤ capacity, and
capacity 0 implies an unallocated (null) buffer — to states satisfying it
again. -/
theorem C2_invariant_preservation (α : Type) (v w : vec α) (x : α) (n p f l : Nat)
    (hv : vec.Inv v) (hw : vec.Inv w) :
    vec.Inv (vec.mk0 : vec α) ∧
    vec.Inv (vec.copyCtor v) ∧
    vec.Inv (vec.assign v w) ∧
    vec.Inv (vec.push_back v x) ∧
    vec.Inv (vec.pop_back v) ∧
    vec.Inv (vec.reserve v n) ∧
    vec.Inv (vec.shrink_to_fit v) ∧
    vec.Inv (vec.clear v) ∧
    vec.Inv (vec.swap v w).1 ∧
    vec.Inv (vec.swap v w).2 ∧
    vec.Inv (vec.insert v p x).1 ∧
    vec.Inv (vec.eraseRange v f l).1 :=
  ⟨vec.Inv_mk0, vec.Inv_copyCtor v, vec.Inv_copyCtor w, vec.Inv_push_back v x hv,
    vec.Inv_pop_back v hv, vec.Inv_reserve v n hv, vec.Inv_shrink_to_fit v hv,
    vec.Inv_clear v hv, hw, hv, vec.Inv_insert v p x hv, vec.Inv_eraseRange v f l hv⟩

/-- Witness for C2 at a concrete pair of states and arguments. -/
theorem C2_witness :
    vec.Inv (vec.push_back (⟨[5, 6], 4, true⟩ : vec Nat) 7) ∧
    vec.Inv (vec.eraseRange (⟨[5, 6], 4, true⟩ : vec Nat) 0 2).1 := by
  have h := C2_invariant_preservation Nat ⟨[5, 6], 4, true⟩ ⟨[], 0, false⟩ 7 3 1 0 2
    (by decide) (by decide)
  exact ⟨h.2.2.2.1, h.2.2.2.2.2.2.2.2.2.2.2⟩

/-- C8: reserve grows the capacity to at least `n` when `n > capacity`, is a
no-op on the capacity otherwise (never shrinks), and in both cases leaves
the size and the element sequence unchanged. -/
theorem C8_reserve_spec (α : Type) (v : vec α) (n : Nat) :
    (v.capacity_ < n → n ≤ (vec.reserve v n).capacity_) ∧
    (n ≤ v.capacity_ → (vec.reserve v n).capacity_ = v.capacity_) ∧
    (vec.reserve v n).data_ = v.data_ ∧
    (vec.reserve v n).size = v.size := by
  unfold vec.reserve vec.new_buffer
  refine ⟨?_, ?_, ?_, ?_⟩
  · intro h; rw [if_pos h]
  · intro h; rw [if_neg (by omega)]
  · split <;> rfl
  · unfold vec.size; split <;> rfl

/-- Witness for C8 at a concrete container of size 2 and `n = 10`. -/
theorem C8_witness :
    10 ≤ (vec.reserve (⟨[1, 2], 2, true⟩ : vec Nat) 10).capacity_ ∧
    (vec.reserve (⟨[1, 2], 2, true⟩ : vec Nat) 1).capacity_ = 2 ∧
    (vec.reserve (⟨[1, 2], 2, true⟩ : vec Nat) 10).data_ = [1, 2] :=
  ⟨(C8_reserve_spec Nat ⟨[1, 2], 2, true⟩ 10).1 (by decide),
    (C8_reserve_spec Nat ⟨[1, 2], 2, true⟩ 1).2.1 (by decide),
    (C8_reserve_spec Nat ⟨[1, 2], 2, true⟩ 10).2.2.1⟩

/-- C9: shrink_to_fit reallocates to capacity exactly `size` when
`size < capacity`, keeping the element sequence, and is a no-op when
`size == capacity`. -/
theorem C9_shrink_to_fit_spec (α : Type) (v : vec α) :
    (v.size < v.capacity_ →
      (vec.shrink_to_fit v).capacity_ = v.size ∧
      (vec.shrink_to_fit v).data_ = v.data_ ∧
      (vec.shrink_to_fit v).size = v.size) ∧
    (v.size = v.capacity_ → vec.shrink_to_fit v = v) := by
  unfold vec.shrink_to_fit vec.new_buffer
  constructor
  · intro h; rw [if_pos h]; exact ⟨rfl, rfl, rfl⟩
  · intro h; rw [if_neg (by omega)]

/-- Witness for C9: shrinking a container of size 1 and capacity 4, and the
no-op case at size = capacity = 2. -/
theorem C9_witness :
    ((vec.shrink_to_fit (⟨[9], 4, true⟩ : vec Nat)).capacity_ = 1 ∧
      (vec.shrink_to_fit (⟨[9], 4, true⟩ : vec Nat)).data_ = [9] ∧
      (vec.shrink_to_fit (⟨[9], 4, true⟩ : vec Nat)).size = 1) ∧
    vec.shrink_to_fit (⟨[1, 2], 2, true⟩ : vec Nat) = ⟨[1, 2], 2, true⟩ :=
  ⟨(C9_shrink_to_fit_spec Nat ⟨[9], 4, true⟩).1 (by decide),
    (C9_shrink_to_fit_spec Nat ⟨[1, 2], 2, true⟩).2 (by decide)⟩

/-- C10: the copy constructor sets the copy's capacity to the source's size,
not the source's capacity; a copy of an empty container has capacity 0 and
no allocation. -/
theorem C10_copy_capacity (α : Type) (v : vec α) :
    (0 < v.size → v.size < v.capacity_ →
      (vec.copyCtor v).capacity_ = v.size ∧ (vec.copyCtor v).capacity_ ≠ v.capacity_) ∧
    (v.size = 0 →
      (vec.copyCtor v).capacity_ = 0 ∧ (vec.copyCtor v).allocated = false) := by
  unfold vec.copyCtor
  constructor
  · intro h1 h2
    rw [if_pos (by omega)]
    exact ⟨rfl, by simpa using Nat.ne_of_lt h2⟩
  · intro h
    rw [if_neg (by omega)]
    exact ⟨rfl, rfl⟩

/-- Witness for C10 at a container of size 2 and capacity 4, and at an empty
container of capacity 4. -/
theorem C10_witness :
    ((vec.copyCtor (⟨[1, 2], 4, true⟩ : vec Nat)).capacity_ = 2 ∧
      (vec.copyCtor (⟨[1, 2], 4, true⟩ : vec Nat)).capacity_ ≠ 4) ∧
    ((vec.copyCtor (⟨[], 4, true⟩ : vec Nat)).capacity_ = 0 ∧
      (vec.copyCtor (⟨[], 4, true⟩ : vec Nat)).allocated = false) :=
  ⟨(C10_copy_capacity Nat ⟨[1, 2], 4, true⟩).1 (by decide) (by decide),
    (C10_copy_capacity Nat ⟨[], 4, true⟩).2 (by decide)⟩

/-- C4: insert at a valid position `p` produces
`s[0..p) ++ [x] ++ s[p..size)`, preserving the relative order of the
pre-existing elements, returns an iterator to position `p`, and grows the
container exactly as `push_back` does (same resulting capacity). -/
theorem C4_insert_spec (α : Type) (v : vec α) (p : Nat) (x : α) (hp : p ≤ v.size) :
    (vec.insert v p x).1.data_ = v.data_.take p ++ x :: v.data_.drop p ∧
    (vec.insert v p x).2 = p ∧
    (vec.insert v p x).1.size = v.size + 1 ∧
    (vec.insert v p x).1.capacity_ = (vec.push_back v x).capacity_ :=
  ⟨vec.insert_data v p x hp, rfl, vec.size_insert v p x, rfl⟩

/-- Witness for C4: inserting 99 at position 1 of `[1, 2, 3]` gives
`[1, 99, 2, 3]`. -/
theorem C4_witness :
    (vec.insert (⟨[1, 2, 3], 4, true⟩ : vec Nat) 1 99).1.data_ = [1, 99, 2, 3] ∧
    (vec.insert (⟨[1, 2, 3], 4, true⟩ : vec Nat) 1 99).2 = 1 :=
  ⟨((C4_insert_spec Nat ⟨[1, 2, 3], 4, true⟩ 1 99 (by decide)).1).trans (by decide),
    (C4_insert_spec Nat ⟨[1, 2, 3], 4, true⟩ 1 99 (by decide)).2.1⟩

/-- C5: erase(first, last) with `last ≤ first` (`cnt ≤ 0`) is a no-op
returning the position at `last`; with `first < last ≤ size` it removes
`s[first..last)`, keeping `s[0..first) ++ s[last..size)` in order, reduces
the size by `last - first`, keeps the capacity, and returns an iterator to
position `first`. -/
theorem C5_erase_range_spec (α : Type) (v : vec α) (f l : Nat) :
    (l ≤ f → vec.eraseRange v f l = (v, l)) ∧
    (f < l → l ≤ v.size →
      (vec.eraseRange v f l).1.data_ = v.data_.take f ++ v.data_.drop l ∧
      (vec.eraseRange v f l).1.size = v.size - (l - f) ∧
      (vec.eraseRange v f l).2 = f ∧
      (vec.eraseRange v f l).1.capacity_ = v.capacity_) := by
  constructor
  · exact vec.eraseRange_noop v f l
  · intro h1 h2
    obtain ⟨hd, hr, hc, _⟩ := vec.eraseRange_main v f l h1 h2
    refine ⟨hd, ?_, hr, hc⟩
    show (vec.eraseRange v f l).1.data_.length = _
    rw [hd, List.length_append, List.length_take, List.length_drop]
    have hn : v.size = v.data_.length := rfl
    omega

/-- Witness for C5: the empty range `erase(2, 2)` is a no-op on
`[1, 99, 2, 3]`, and `erase(1, 3)` on `[1, 99, 2, 3]` gives `[1, 3]`. -/
theorem C5_witness :
    vec.eraseRange (⟨[1, 99, 2, 3], 4, true⟩ : vec Nat) 2 2 = (⟨[1, 99, 2, 3], 4, true⟩, 2) ∧
    (vec.eraseRange (⟨[1, 99, 2, 3], 4, true⟩ : vec Nat) 1 3).1.data_ = [1, 3] :=
  ⟨(C5_erase_range_spec Nat ⟨[1, 99, 2, 3], 4, true⟩ 2 2).1 (by decide),
    ((C5_erase_range_spec Nat ⟨[1, 99, 2, 3], 4, true⟩ 1 3).2 (by decide) (by decide)).1.trans
      (by decide)⟩

/-- C6: inserting `x` at a valid position `p` and then erasing the single
element at position `p` yields the original element sequence. -/
theorem C6_insert_erase_roundtrip (α : Type) (v : vec α) (p : Nat) (x : α)
    (hp : p ≤ v.size) :
    (vec.erase1 (vec.insert v p x).1 p).1.data_ = v.data_ := by
  have hw : (vec.insert v p x).1.data_ = v.data_.take p ++ x :: v.data_.drop p :=
    vec.insert_data v p x hp
  have hs : (vec.insert v p x).1.size = v.size + 1 := vec.size_insert v p x
  have hmain := vec.eraseRange_main (vec.insert v p x).1 p (p + 1)
    (Nat.lt_succ_self p) (by omega)
  show (vec.eraseRange (vec.insert v p x).1 p (p + 1)).1.data_ = v.data_
  rw [hmain.1, hw]
  have hlt : (v.data_.take p).length = p := by
    have hn : v.size = v.data_.length := rfl
    rw [List.length_take]; omega
  have h1 : p + 1 = (v.data_.take p).length + 1 := by rw [hlt]
  rw [List.take_append_of_le_length (le_of_eq hlt.symm), h1, List.drop_append 1]
  show (v.data_.take p).take p ++ v.data_.drop p = v.data_
  rw [List.take_take, Nat.min_self]
  exact List.take_append_drop p v.data_

/-- Witness for C6: insert 99 at position 1 of `[1, 2, 3]`, then erase the
single element at position 1; the contents are `[1, 2, 3]` again. -/
theorem C6_witness :
    (vec.erase1 (vec.insert (⟨[1, 2, 3], 4, true⟩ : vec Nat) 1 99).1 1).1.data_ = [1, 2, 3] :=
  C6_insert_erase_roundtrip Nat ⟨[1, 2, 3], 4, true⟩ 1 99 (by decide)

/-- Counterexample to C1 as stated: start from the default-constructed
container (size = capacity = 0, so this `push_back` triggers reallocation)
and let the final construction of the new element — copy #1 of this call —
throw.  After the exception propagates, the size (0) and the (empty)
element sequence are unchanged, but the capacity is 1, not the pre-call
capacity 0: `new_buffer` has already replaced the buffer and updated
`capacity_` before the failing construction runs. -/
theorem C1_counterexample :
    (vec.mk0 : vec Nat).size = (vec.mk0 : vec Nat).capacity_ ∧
    vec.push_backT (vec.mk0 : vec Nat) 5 1 = .error ⟨[], 1, true⟩ ∧
    (1 : Nat) ≠ (vec.mk0 : vec Nat).capacity_ := by
  refine ⟨rfl, ?_, by decide⟩
  rfl

/-- C1 amended: on a `push_back` that triggers reallocation
(size == capacity), if the copy constructor throws then the element values
and the size are always restored; the capacity (and buffer) are also
unchanged when the throw happens at the initial copy of the argument or at
any copy during relocation (copy index ≤ size), but when the final
construction of the new element throws (copy index = size + 1) the
container keeps the already-installed new buffer, so its capacity is
`calc_new_capacity` (max(1, 2·capacity)) rather than the pre-call
capacity. -/
theorem C1_amended (α : Type) (v : vec α) (x : α) (thr : Nat) (w : vec α)
    (hre : v.size = v.capacity_)
    (herr : vec.push_backT v x thr = .error w) :
    w.data_ = v.data_ ∧ w.size = v.size ∧
    (thr ≤ v.size → w = v) ∧
    (thr = v.size + 1 →
      w.capacity_ = vec.calc_new_capacity v ∧ w.allocated = true) := by
  rw [vec.push_backT_eq v x thr hre] at herr
  split at herr
  · next h =>
    injection herr with h2
    subst h2
    exact ⟨rfl, rfl, fun _ => rfl, fun hh => (by omega : False).elim⟩
  · split at herr
    · next h h2 =>
      injection herr with h3
      subst h3
      refine ⟨rfl, rfl, fun hh => (by omega : False).elim, fun _ => ⟨rfl, ?_⟩⟩
      exact decide_eq_true (vec.calc_new_capacity_ne_zero v)
    · exact Except.noConfusion herr

/-- Witness for C1's amended theorem: container `[7]` with capacity 1 (full),
push 9 with the relocation copy of element 0 (copy #1) throwing: the
observable state is exactly the original. -/
theorem C1_witness :
    (⟨[7], 1, true⟩ : vec Nat).size = (⟨[7], 1, true⟩ : vec Nat).capacity_ ∧
    vec.push_backT (⟨[7], 1, true⟩ : vec Nat) 9 1 = .error ⟨[7], 1, true⟩ ∧
    (⟨[7], 1, true⟩ : vec Nat).data_ = [7] :=
  ⟨by decide, rfl,
    ((C1_amended Nat ⟨[7], 1, true⟩ 9 1 ⟨[7], 1, true⟩ (by decide) rfl).2.2.1
        (by decide)) ▸ rfl⟩

/-- C7: copy construction (and copy assignment, by copy-and-swap) produces a
container with the same element sequence, holding a buffer disjoint from
the source's, and the two containers are independent: an arbitrary sequence
of mutating operations (push_back, pop_back, clear, reserve, shrink_to_fit,
element writes, insert, erase) applied to the copy leaves the source's live
elements untouched, and conversely mutating the source leaves the copy's
live elements untouched.  (The size and capacity counters of a spectator
container are fields of its own record, untouched by construction, so its
whole observable state is preserved.)  Stated over the pointer-level model;
`hv` says the source's buffer was actually allocated from this heap and
`hv0` that a null buffer holds no live elements. -/
theorem C7_copy_independence (α : Type) (h : vec.Heap α) (v w : vec.vecP)
    (ops : List (vec.Op α))
    (hv : v.ptr < h.next) (hv0 : v.ptr = 0 → v.size_ = 0) :
    vec.elemsP (vec.copyCtorP h v).1 (vec.copyCtorP h v).2 = vec.elemsP h v ∧
    vec.elemsP (vec.assignP h w v).1 (vec.assignP h w v).2 = vec.elemsP h v ∧
    vec.elemsP (vec.copyCtorP h v).1 v = vec.elemsP h v ∧
    ((vec.copyCtorP h v).2.ptr ≠ v.ptr ∨ v.ptr = 0) ∧
    vec.elemsP (vec.runOps (vec.copyCtorP h v).1 (vec.copyCtorP h v).2 ops).1 v
      = vec.elemsP h v ∧
    vec.elemsP (vec.runOps (vec.copyCtorP h v).1 v ops).1 (vec.copyCtorP h v).2
      = vec.elemsP h v := by
  obtain ⟨e1, e2, hnext, hlt, hd1, hd2, h0⟩ := vec.copyCtorP_spec h v hv
  refine ⟨e1, e1, e2, hd1, ?_, ?_⟩
  · rw [vec.runOps_frame ops (vec.copyCtorP h v).1 (vec.copyCtorP h v).2 v
      (lt_of_lt_of_le hv hnext) hlt hd1 hv0]
    exact e2
  · rw [vec.runOps_frame ops (vec.copyCtorP h v).1 v (vec.copyCtorP h v).2
      hlt (lt_of_lt_of_le hv hnext) hd2 h0]
    exact e1

/-- Witness for C7: heap with one buffer `[4, 5]` at address 1, source of
size 2 pointing at it, and a push_back of 9 mutating the copy: the source
still reads `[4, 5]`. -/
theorem C7_witness :
    vec.elemsP
      (vec.runOps
        (vec.copyCtorP (⟨fun q => if q = 1 then [4, 5] else [], 2⟩ : vec.Heap Nat)
          ⟨1, 2, 2⟩).1
        (vec.copyCtorP (⟨fun q => if q = 1 then [4, 5] else [], 2⟩ : vec.Heap Nat)
          ⟨1, 2, 2⟩).2 [vec.Op.push 9]).1
      ⟨1, 2, 2⟩ = [4, 5] ∧
    vec.elemsP
      (vec.copyCtorP (⟨fun q => if q = 1 then [4, 5] else [], 2⟩ : vec.Heap Nat)
        ⟨1, 2, 2⟩).1
      (vec.copyCtorP (⟨fun q => if q = 1 then [4, 5] else [], 2⟩ : vec.Heap Nat)
        ⟨1, 2, 2⟩).2 = [4, 5] :=
  ⟨((C7_copy_independence Nat ⟨fun q => if q = 1 then [4, 5] else [], 2⟩ ⟨1, 2, 2⟩
        ⟨0, 0, 0⟩ [vec.Op.push 9] (by decide) (by decide)).2.2.2.2.1).trans (by decide),
    ((C7_copy_independence Nat ⟨fun q => if q = 1 then [4, 5] else [], 2⟩ ⟨1, 2, 2⟩
        ⟨0, 0, 0⟩ [vec.Op.push 9] (by decide) (by decide)).1).trans (by decide)⟩
